import Mathlib

/-!
Verification of the NetKet VMC core against its specification.

This file shallowly embeds, over exact real (and complex) arithmetic, the
parts of the code that the claims are about:

- `RbmSpinSymm` (src/unnamed/part_001): the permutation-symmetric restricted
  Boltzmann machine, its parameter expansion (`SetBareParameters`), its
  evaluation (`LogVal`), the lookup-based difference (`LogValDiff`), and the
  derivative map (`DerMatSymm_`, `BareDerLog`, `DerLog`).
- `Hypercube::SymmetryTable` (src/unnamed/part_000): the translation table of
  the periodic hypercube lattice.
- `MetropolisLocal::Sweep` (src/Sampler/metropolis_local.hh): one Markov
  step and one sweep, with the pseudo-random draws passed in as explicit
  inputs (site draw, stream of local-state draws, uniform variate).
- `Spin` (src/Hilbert/spins.hh): configuration updates and the constrained
  random configuration generator for spin one-half.
- `Sr::Gradient` (second part of src/Sampler/metropolis_local.hh): the
  distributed gradient estimator, with the all-reduce modelled as a sum
  over the worker index.

Machine scalars are embedded as real numbers (the template parameter `T` of
the C++ code instantiated at `double`); `Sr::Gradient` is embedded over the
complex numbers, matching the instantiation in the main program. Integer
loop index arithmetic is embedded on `Nat`, matching the nonnegative ranges
the loops traverse.
-/

open scoped Classical

noncomputable section

namespace Netket

/-- Modelled from the spec: `RbmSpin<T>::lncosh` is not part of the sources
under verification; the specification states that it computes `lncosh`
elementwise via the numerically stable form `|x| + log((1+e^{-2|x|})/2)`. -/
def lncosh (x : ℝ) : ℝ := |x| + Real.log ((1 + Real.exp (-2 * |x|)) / 2)

/-- The state of an `RbmSpinSymm` machine (src/unnamed/part_001): geometry
(`nv_`, `alpha_`, the symmetry table `permtable_` with `permsize_` rows) and
the reduced parameters (`asymm_`, `bsymm_`, `Wsymm_`). The bare parameters
`a_`, `b_`, `W_` are recomputed from these by `SetBareParameters` and are
embedded below as the functions `aBare`, `bBare`, `WBare`. Vectors and
matrices are embedded as functions out of their index sets; two-dimensional
index accesses `permtable_[x][y]` are embedded as `permtable x y`. -/
structure RbmSpinSymm where
  nv : ℕ
  alpha : ℕ
  permsize : ℕ
  permtable : ℕ → ℕ → ℕ
  usea : Bool
  useb : Bool
  asymm : ℝ
  bsymm : ℕ → ℝ
  Wsymm : ℕ → ℕ → ℝ

namespace RbmSpinSymm

/-- Source: `nh_ = alpha_ * permsize_` (Init). -/
def nh (m : RbmSpinSymm) : ℕ := m.alpha * m.permsize

/-- Source: `npar_` as computed by `Init`. -/
def npar (m : RbmSpinSymm) : ℕ :=
  (if m.usea then 1 else 0) + (if m.useb then m.alpha else 0) + m.nv * m.alpha

/-- Source: `nbarepar_` as computed by `Init`. -/
def nbarepar (m : RbmSpinSymm) : ℕ :=
  (if m.usea then m.nv else 0) + (if m.useb then m.nh else 0) + m.nv * m.nh

/-- Source: `SetBareParameters`: `a_(i) = asymm_`. -/
def aBare (m : RbmSpinSymm) (_ : ℕ) : ℝ := m.asymm

/-- Source: `SetBareParameters`: `b_(j) = bsymm_(jsymm)` with
`jsymm = floor(j / permsize_)`. -/
def bBare (m : RbmSpinSymm) (j : ℕ) : ℝ := m.bsymm (j / m.permsize)

/-- Source: `SetBareParameters`:
`W_(i,j) = Wsymm_(permtable_[i][j % permsize_], floor(j / permsize_))`. -/
def WBare (m : RbmSpinSymm) (i j : ℕ) : ℝ :=
  m.Wsymm (m.permtable i (j % m.permsize)) (j / m.permsize)

/-- The hidden-unit activation vector `W_.transpose()*v + b_`. -/
def theta (m : RbmSpinSymm) (v : ℕ → ℝ) (j : ℕ) : ℝ :=
  (∑ i in Finset.range m.nv, m.WBare i j * v i) + m.bBare j

/-- Source: `LogVal`: `v.dot(a_) + lncosh(W_.transpose()*v + b_).sum()`. -/
def logVal (m : RbmSpinSymm) (v : ℕ → ℝ) : ℝ :=
  (∑ i in Finset.range m.nv, v i * m.aBare i)
    + ∑ j in Finset.range m.nh, lncosh (m.theta v j)

/-- Source: `InitLookup`: the lookup vector is `W_.transpose()*v + b_`. -/
def initLookup (m : RbmSpinSymm) (v : ℕ → ℝ) : ℕ → ℝ := m.theta v

/-- Source: `UpdateLookup`: `lt.V(0) += W_.row(sf) * (newconf[s] - v(sf))` for all
listed sites. -/
def updateLookup (m : RbmSpinSymm) (v : ℕ → ℝ) (tochange : List ℕ)
    (newconf : List ℝ) (lt : ℕ → ℝ) : ℕ → ℝ := fun j =>
  lt j + ((tochange.zip newconf).map (fun q => m.WBare q.1 j * (q.2 - v q.1))).sum

/-- The lookup-based `LogValDiff` overload: for a nonempty move list it
returns the visible-bias terms plus the change of the `lncosh` sums, with
the new activations computed from the lookup vector. -/
def logValDiffLt (m : RbmSpinSymm) (v : ℕ → ℝ) (tochange : List ℕ)
    (newconf : List ℝ) (lt : ℕ → ℝ) : ℝ :=
  if tochange = [] then 0
  else
    ((tochange.zip newconf).map (fun q => m.aBare q.1 * (q.2 - v q.1))).sum
      + ((∑ j in Finset.range m.nh,
            lncosh (lt j
              + ((tochange.zip newconf).map
                  (fun q => m.WBare q.1 j * (q.2 - v q.1))).sum))
          - ∑ j in Finset.range m.nh, lncosh (lt j))

/-- Source: `SetParameters`: reads the reduced parameter vector in the order
`asymm` (if `usea_`), `bsymm_(0..alpha_-1)` (if `useb_`), then `Wsymm_(i,j)`
with `i` outer and `j` inner, and installs it (zeroing disabled blocks). -/
def setParameters (m : RbmSpinSymm) (p : ℕ → ℝ) : RbmSpinSymm :=
  { m with
    asymm := if m.usea then p 0 else 0
    bsymm := fun f => if m.useb then p ((if m.usea then 1 else 0) + f) else 0
    Wsymm := fun i j =>
      p ((if m.usea then 1 else 0) + (if m.useb then m.alpha else 0)
          + i * m.alpha + j) }

/-- Source: `GetParameters`: writes the reduced parameters back in the same order.
The doubly nested `Wsymm_` loop is embedded with its flattened counter
`c = i * alpha_ + j`, exactly the order in which the code writes `pars`. -/
def getParameters (m : RbmSpinSymm) : List ℝ :=
  (if m.usea then [m.asymm] else [])
    ++ (if m.useb then (List.range m.alpha).map m.bsymm else [])
    ++ (List.range (m.nv * m.alpha)).map
        (fun c => m.Wsymm (c / m.alpha) (c % m.alpha))

/-- Source: `BareDerLog`: derivatives of `LogVal` with respect to the bare
parameters, laid out as `v` (if `usea_`), `tanh(theta)` (if `useb_`), then
`tanh(theta_j) * v_i` with `i` outer and `j` inner. The nested loops are
embedded through the flattened counter the code itself maintains in `k`.
`RbmSpin<T>::tanh` is not in the sources; modelled from the spec as the
elementwise hyperbolic tangent (the derivative of `lncosh`). -/
def bareDerLog (m : RbmSpinSymm) (v : ℕ → ℝ) : ℕ → ℝ := fun k =>
  if m.usea ∧ k < m.nv then v k
  else if m.useb ∧ k < (if m.usea then m.nv else 0) + m.nh then
    Real.tanh (m.theta v (k - (if m.usea then m.nv else 0)))
  else
    Real.tanh (m.theta v
        ((k - ((if m.usea then m.nv else 0) + (if m.useb then m.nh else 0)))
          % m.nh))
      * v ((k - ((if m.usea then m.nv else 0) + (if m.useb then m.nh else 0)))
          / m.nh)

/-- The row of `DerMatSymm_` that holds the single 1 of bare column `c`, as
written by the three loops of `Init`. In the hidden-bias block the code
computes `ksymm = floor(k / permsize_)` from the loop-invariant symmetric
counter `k` (not from the bare loop index `p`), so the row is the same for
the whole block; this is embedded verbatim. -/
def derRow (m : RbmSpinSymm) (c : ℕ) : ℕ :=
  if m.usea ∧ c < m.nv then 0
  else if m.useb ∧ c < (if m.usea then m.nv else 0) + m.nh then
    (if m.usea then 1 else 0) + (if m.usea then 1 else 0) / m.permsize
  else
    (if m.usea then 1 else 0) + (if m.useb then m.alpha else 0)
      + ((c - ((if m.usea then m.nv else 0) + (if m.useb then m.nh else 0)))
          % m.nh) / m.permsize
      + m.alpha * m.permtable
          ((c - ((if m.usea then m.nv else 0) + (if m.useb then m.nh else 0)))
            / m.nh)
          (((c - ((if m.usea then m.nv else 0) + (if m.useb then m.nh else 0)))
            % m.nh) % m.permsize)

/-- Source: `DerMatSymm_`: the zero-initialised `npar_ x nbarepar_` matrix in which
each in-range bare column `c` has a single 1, in row `derRow c`. -/
def DerMatSymm (m : RbmSpinSymm) (r c : ℕ) : ℝ :=
  if c < m.nbarepar ∧ r = m.derRow c then 1 else 0

/-- Source: `DerLog`: `DerMatSymm_ * BareDerLog(v)`. -/
def derLog (m : RbmSpinSymm) (v : ℕ → ℝ) (r : ℕ) : ℝ :=
  ∑ c in Finset.range m.nbarepar, m.DerMatSymm r c * m.bareDerLog v c

end RbmSpinSymm

/-! ### The periodic hypercube and its translation table

`Hypercube::GenerateLatticePoints` enumerates the coordinate vectors of the
`L^ndim` sites with `netket::next_variation`, which is not part of the
sources under verification; modelled from the spec as the odometer
enumeration, so that the coordinate of site `x` in dimension `k` is digit
`k` of `x` in base `L`. `coord2sites_` is then the base-`L` digit
recomposition. -/

/-- Coordinate of site `x` in dimension `k` (digit `k` of `x` in base `L`). -/
def coordOf (L x k : ℕ) : ℕ := x / L ^ k % L

/-- Source: `coord2sites_`: the site whose coordinate vector is `c` (restricted to
dimensions `0..d-1`). -/
def fromCoord (L d : ℕ) (c : ℕ → ℕ) : ℕ := ∑ k in Finset.range d, c k * L ^ k

/-- Source: `Hypercube::SymmetryTable` (pbc case): row `g`, entry `i` is the site
whose coordinates are `(sites_[g][k] + sites_[i][k]) % L_` in each
dimension `k`. -/
def symmTable (L d : ℕ) (g i : ℕ) : ℕ :=
  fromCoord L d (fun k => (coordOf L g k + coordOf L i k) % L)

/-- The inverse translation (proof device, not from the code): the site with
coordinates `(L - sites_[g][k]) % L`. -/
def negSite (L d : ℕ) (g : ℕ) : ℕ :=
  fromCoord L d (fun k => (L - coordOf L g k) % L)

/-- An `RbmSpinSymm` machine built on the periodic hypercube with edge `L`
and dimension `d`, as produced by `Init` from `Hypercube::SymmetryTable`:
`nv_ = permsize_ = L^d`. -/
def hypercubeRbm (L d alpha : ℕ) (ua ub : Bool) (a0 : ℝ) (b0 : ℕ → ℝ)
    (W0 : ℕ → ℕ → ℝ) : RbmSpinSymm :=
  ⟨L ^ d, alpha, L ^ d, symmTable L d, ua, ub, a0, b0, W0⟩

/-! ### The Spin Hilbert space -/

/-- Source: `Spin::UpdateConf`: overwrite the listed sites with the given values, in
order. -/
def updateConf (v : ℕ → ℝ) (tochange : List ℕ) (newconf : List ℝ) : ℕ → ℝ :=
  (tochange.zip newconf).foldl (fun w q => Function.update w q.1 q.2) v

/-- The C++ `int` cast of a `double`, on rationals: truncation toward
zero. -/
def cppInt (q : ℚ) : ℤ := if 0 ≤ q then ⌊q⌋ else -⌊-q⌋

/-- Source: `Spin::RandomVals`, constrained spin one-half branch:
`nup = nspins_/2 + int(totalS_)` in C++ integer arithmetic. -/
def spinNup (n : ℕ) (Sz : ℚ) : ℤ := (n : ℤ) / 2 + cppInt Sz

/-- Source: `ndown = nspins_ - nup`. -/
def spinNdown (n : ℕ) (Sz : ℚ) : ℤ := (n : ℤ) - spinNup n Sz

/-- The abort guard of the constrained spin one-half branch:
`(nup - ndown) != int(2 * totalS_)`. -/
def randomValsAborts (n : ℕ) (Sz : ℚ) : Bool :=
  spinNup n Sz - spinNdown n Sz ≠ cppInt (2 * Sz)

/-- The vector built before the shuffle: `vect[i] = +1` for `i < nup`,
`-1` for the remaining entries. -/
def spinBase (n : ℕ) (Sz : ℚ) : ℕ → ℝ := fun i =>
  if (i : ℤ) < spinNup n Sz then 1 else -1

/-! ### The Metropolis-local sampler

The pseudo-random numbers consumed by one proposal of
`MetropolisLocal::Sweep` are passed in explicitly: the site drawn by
`distrs`, the stream of local-state indices drawn by the repeated calls of
`diststate` inside the reject-and-resample loop, and the uniform variate
drawn by `distu` in the acceptance test. -/

/-- The random draws consumed by one proposal. -/
structure Draw where
  site : ℕ
  states : ℕ → ℕ
  u : ℝ

/-- The sampler state: visible configuration `v_`, lookup table `lt_`, and
the `accept_` and `moves_` counters. The lookup type is the machine-specific
type parameter `Λ`. -/
structure SState (Λ : Type) where
  v : ℕ → ℝ
  lt : Λ
  accept : ℕ
  moves : ℕ

/-- The parts of the machine and Hilbert space the sweep consults. -/
structure SamplerCtx (Λ : Type) where
  nv : ℕ
  localstates : List ℝ
  logValDiff : (ℕ → ℝ) → List ℕ → List ℝ → Λ → ℝ
  updateLookup : (ℕ → ℝ) → List ℕ → List ℝ → Λ → Λ

/-- The reject-and-resample loop: the first drawn local state that differs
from the current value at the chosen site. The equality test embeds the
machine-epsilon comparison of the code, which on the exact local alphabet
(values at mutual distance at least 2) coincides with equality. When no
draw ever differs the C++ loop does not terminate; that case is mapped to
the current value and excluded by hypothesis where it matters. -/
def pickNewconf (ls : List ℝ) (cur : ℝ) (states : ℕ → ℕ) : ℝ :=
  if h : ∃ t, ls.getD (states t) 0 ≠ cur then ls.getD (states (Nat.find h)) 0
  else cur

/-- One proposal of `MetropolisLocal::Sweep`: draw a site, reject-and-
resample a strictly different local value, evaluate the lookup-based
`LogValDiff`, accept when `std::norm(std::exp(lvd))` (for a real machine,
`exp(lvd)^2`) exceeds the uniform draw; on acceptance update the lookup and
the configuration and bump `accept_`; bump `moves_` either way. -/
def proposalStep {Λ : Type} (ctx : SamplerCtx Λ) (st : SState Λ) (d : Draw) :
    SState Λ :=
  let si := d.site
  let newval := pickNewconf ctx.localstates (st.v si) d.states
  let lvd := ctx.logValDiff st.v [si] [newval] st.lt
  if Real.exp lvd ^ 2 > d.u then
    ⟨updateConf st.v [si] [newval], ctx.updateLookup st.v [si] [newval] st.lt,
      st.accept + 1, st.moves + 1⟩
  else
    ⟨st.v, st.lt, st.accept, st.moves + 1⟩

/-- Source: `MetropolisLocal::Sweep`: `nv_` sequential proposals, proposal `i`
consuming the draws `draws i`. -/
def sweep {Λ : Type} (ctx : SamplerCtx Λ) (st : SState Λ) (draws : ℕ → Draw) :
    SState Λ :=
  (List.range ctx.nv).foldl (fun s i => proposalStep ctx s (draws i)) st

/-- Modelled from the spec (section 4.4): one proposal as the specification
words it, with site `s`, target value `l`, uniform variate `u`, and
acceptance probability `min(1, |exp(Delta)|^2)`. -/
def sweepStepSpec {Λ : Type} (ctx : SamplerCtx Λ) (st : SState Λ) (s : ℕ)
    (l : ℝ) (u : ℝ) : SState Λ :=
  let delta := ctx.logValDiff st.v [s] [l] st.lt
  if u < min 1 (Real.exp delta ^ 2) then
    ⟨updateConf st.v [s] [l], ctx.updateLookup st.v [s] [l] st.lt,
      st.accept + 1, st.moves + 1⟩
  else
    ⟨st.v, st.lt, st.accept, st.moves + 1⟩

/-- A `double` value that may be NaN: the embedding of the IEEE scalar for
the claim about invalid log-ratios. -/
inductive FpVal where
  | nan : FpVal
  | fin : ℝ → FpVal

/-- Source: `std::norm(std::exp(lvd))` on the IEEE model: NaN propagates. -/
def fpNormExp : FpVal → FpVal
  | .nan => .nan
  | .fin x => .fin (Real.exp x ^ 2)

/-- The IEEE comparison `ratio > u`: false whenever `ratio` is NaN. -/
def fpGt : FpVal → ℝ → Prop
  | .nan, _ => False
  | .fin x, u => x > u

/-- One proposal with the log-ratio returned by the machine modelled as an
IEEE value `lvd` (possibly NaN), following the same acceptance branch as
`proposalStep`. -/
def proposalStepFp {Λ : Type} (ctx : SamplerCtx Λ) (st : SState Λ) (d : Draw)
    (lvd : FpVal) : SState Λ :=
  let si := d.site
  let newval := pickNewconf ctx.localstates (st.v si) d.states
  if fpGt (fpNormExp lvd) d.u then
    ⟨updateConf st.v [si] [newval], ctx.updateLookup st.v [si] [newval] st.lt,
      st.accept + 1, st.moves + 1⟩
  else
    ⟨st.v, st.lt, st.accept, st.moves + 1⟩

/-- The sampler context induced by an `RbmSpinSymm` machine over the spin
one-half local alphabet `{-1, +1}` (`Spin::LocalStates` for `S = 1/2`). -/
def rbmCtx (m : RbmSpinSymm) : SamplerCtx (ℕ → ℝ) :=
  ⟨m.nv, [-1, 1], m.logValDiffLt, m.updateLookup⟩

/-! ### The distributed gradient estimator (`Sr::Gradient`)

Worker `w` holds local energies `eloc w k` and log-derivative rows
`ok w k p` for samples `k < nsamp`; `SumOnNodes` is the all-reduce sum over
the worker index `w < W`. -/

/-- Source: `elocmean_`: the local Eigen `.mean()` (sum over samples divided by the
sample count), all-reduce-summed and divided by the number of workers. -/
def elocMean (W nsamp : ℕ) (eloc : ℕ → ℕ → ℂ) : ℂ :=
  (∑ w in Finset.range W, (∑ k in Finset.range nsamp, eloc w k) / nsamp) / W

/-- Source: `Okmean_`, column `p`: the local column mean, all-reduce-summed and
divided by the number of workers. -/
def okMean (W nsamp : ℕ) (ok : ℕ → ℕ → ℕ → ℂ) (p : ℕ) : ℂ :=
  (∑ w in Finset.range W, (∑ k in Finset.range nsamp, ok w k p) / nsamp) / W

/-- Source: `Sr::Gradient`, component `p`: per worker `2 * (Ok_.adjoint() * elocs_)`
on the centered quantities, all-reduce-summed, divided by
`totalnodes_ * nsamp`. -/
def srGradient (W nsamp : ℕ) (eloc : ℕ → ℕ → ℂ) (ok : ℕ → ℕ → ℕ → ℂ)
    (p : ℕ) : ℂ :=
  (∑ w in Finset.range W,
      2 * ∑ k in Finset.range nsamp,
            (starRingEnd ℂ) (ok w k p - okMean W nsamp ok p)
              * (eloc w k - elocMean W nsamp eloc))
    / ((W : ℂ) * nsamp)

/-- Modelled from the spec (section 4.6, step 4): the estimator
`g = (2 / (W * M_w)) * sum_k conj(Obar_k) * Ebar_k`, all-reduce-summed,
with the centering means of step 3. -/
def gradientSpec (W nsamp : ℕ) (eloc : ℕ → ℕ → ℂ) (ok : ℕ → ℕ → ℕ → ℂ)
    (p : ℕ) : ℂ :=
  (2 / ((W : ℂ) * nsamp))
    * ∑ w in Finset.range W, ∑ k in Finset.range nsamp,
        (starRingEnd ℂ) (ok w k p - okMean W nsamp ok p)
          * (eloc w k - elocMean W nsamp eloc)

/-! ### Concrete instances used by counterexamples and witnesses -/

/-- A reduced parameter vector: zero visible bias, all other entries 1. -/
def pOneB : ℕ → ℝ := fun k => if k = 0 then 0 else 1

/-- The reduced parameter vector whose entry `k` is the real number `k`. -/
def pIdx : ℕ → ℝ := fun k => (k : ℝ)

/-- A symmetric RBM on the periodic chain of length 2 with two feature
channels (`nv_ = permsize_ = 2`, `alpha_ = 2`, `nh_ = 4`). -/
def mChain2 (p : ℕ → ℝ) : RbmSpinSymm :=
  (hypercubeRbm 2 1 2 true true 0 (fun _ => 0) (fun _ _ => 0)).setParameters p

/-- The all-ones visible configuration. -/
def vOne : ℕ → ℝ := fun _ => 1

/-- A symmetric RBM on the periodic chain of length 4 with all reduced
parameters zero (so that every log-ratio vanishes and every proposal is
accepted whenever the uniform draw is below 1). -/
def mZero4 : RbmSpinSymm :=
  hypercubeRbm 4 1 1 true true 0 (fun _ => 0) (fun _ _ => 0)

/-- The configuration `(+1, +1, -1, -1)` (total magnetization 0). -/
def vInit4 : ℕ → ℝ := fun i => if i < 2 then 1 else -1

/-- The sampler state holding `vInit4` with a freshly initialised lookup. -/
def stInit4 : SState (ℕ → ℝ) := ⟨vInit4, mZero4.initLookup vInit4, 0, 0⟩

/-- Draws for one sweep on `mZero4`: proposal 0 targets site 0, the later
proposals target site 1; the local-state stream alternates between the two
alphabet indices; every uniform variate is 1/2. -/
def draws4 : ℕ → Draw := fun i => ⟨if i = 0 then 0 else 1, fun t => t % 2, 1 / 2⟩

/-! ## Theorems -/

/-- Splitting a mapped range. -/
lemma map_range_add (p : ℕ → ℝ) (a b : ℕ) :
    (List.range (a + b)).map p
      = (List.range a).map p ++ (List.range b).map (fun x => p (a + x)) := by
  rw [List.range_add, List.map_append, List.map_map]
  rfl

/-- Claim C10: for every symmetric RBM and every parameter vector of length
`Npar()`, `SetParameters` followed by `GetParameters` returns exactly the
installed vector, in the same order and positions, for all `usea_`/`useb_`
flag combinations. -/
theorem getParameters_setParameters (m : RbmSpinSymm) (p : ℕ → ℝ) :
    (m.setParameters p).getParameters = (List.range m.npar).map p := by
  obtain ⟨nv, alpha, G, pt, ua, ub, a0, b0, W0⟩ := m
  have key : ∀ (X : ℕ),
      (List.range (nv * alpha)).map (fun c => p (X + c / alpha * alpha + c % alpha))
        = (List.range (nv * alpha)).map (fun x => p (X + x)) := by
    intro X
    refine List.map_congr_left ?_
    intro c _
    have h := Nat.div_add_mod' c alpha
    congr 1
    omega
  have key0 :
      (List.range (nv * alpha)).map (fun c => p (c / alpha * alpha + c % alpha))
        = (List.range (nv * alpha)).map p := by
    refine List.map_congr_left ?_
    intro c _
    have h := Nat.div_add_mod' c alpha
    congr 1
  cases ua <;> cases ub <;>
    simp [RbmSpinSymm.getParameters, RbmSpinSymm.setParameters,
      RbmSpinSymm.npar, map_range_add, List.range_succ, key, key0]

/-- Claim C7: the per-iteration gradient computed by `Sr::Gradient` equals
the estimator of the specification: centering by the all-reduce-averaged
means, then `(2 / (W * M_w)) * sum_k conj(Obar_k) * Ebar_k`, all-reduce-
summed over the workers. -/
theorem srGradient_eq_gradientSpec (W nsamp : ℕ) (eloc : ℕ → ℕ → ℂ)
    (ok : ℕ → ℕ → ℕ → ℂ) (p : ℕ) :
    srGradient W nsamp eloc ok p = gradientSpec W nsamp eloc ok p := by
  unfold srGradient gradientSpec
  rw [← Finset.mul_sum, div_mul_eq_mul_div]

/-- Claim C9: a proposal whose log-ratio is NaN is rejected: the visible
configuration, the lookup table and the accept counter are unchanged and
only the moves counter is incremented. -/
theorem nan_logratio_rejected {Λ : Type} (ctx : SamplerCtx Λ) (st : SState Λ)
    (d : Draw) :
    (proposalStepFp ctx st d FpVal.nan).v = st.v
      ∧ (proposalStepFp ctx st d FpVal.nan).lt = st.lt
      ∧ (proposalStepFp ctx st d FpVal.nan).accept = st.accept
      ∧ (proposalStepFp ctx st d FpVal.nan).moves = st.moves + 1 := by
  refine ⟨?_, ?_, ?_, ?_⟩ <;> simp [proposalStepFp, fpNormExp, fpGt]

/-- Claim C2, counterexample: on the periodic chain of length 2 with two
feature channels, the expanded hidden bias at index `alpha * g + f` with
`g = 0`, `f = 1` is `bsymm_(0)`, not `bsymm_(1)` as the claim states (the
code indexes hidden units channel-major, `j = f * G + g`). -/
theorem bBare_not_claim_layout :
    (mChain2 pIdx).bBare (2 * 0 + 1) ≠ (mChain2 pIdx).bsymm 1 := by
  norm_num [mChain2, pIdx, hypercubeRbm, RbmSpinSymm.bBare,
    RbmSpinSymm.setParameters]

/-- Claim C2, amended: after `SetParameters`, the bare parameters satisfy
`a_i = asymm_`, `b_(G*f+g) = bsymm_(f)` and
`W_(i, G*f+g) = Wsymm_(permtable_[i][g], f)` for every site `i`, group
element `g < G` and channel `f` (hidden units are indexed channel-major and
the permutation table is accessed site-first). -/
theorem bare_expansion (m : RbmSpinSymm) (p : ℕ → ℝ) (i g f : ℕ)
    (hg : g < m.permsize) :
    (m.setParameters p).aBare i = (m.setParameters p).asymm
      ∧ (m.setParameters p).bBare (m.permsize * f + g) = (m.setParameters p).bsymm f
      ∧ (m.setParameters p).WBare i (m.permsize * f + g)
          = (m.setParameters p).Wsymm ((m.setParameters p).permtable i g) f := by
  have hG : 0 < m.permsize := Nat.pos_of_ne_zero (by omega)
  have hperm : (m.setParameters p).permsize = m.permsize := rfl
  have hdiv : (m.permsize * f + g) / m.permsize = f := by
    rw [Nat.mul_add_div hG, Nat.div_eq_of_lt hg, Nat.add_zero]
  have hmod : (m.permsize * f + g) % m.permsize = g := by
    rw [Nat.mul_add_mod, Nat.mod_eq_of_lt hg]
  refine ⟨rfl, ?_, ?_⟩
  · rw [RbmSpinSymm.bBare, hperm, hdiv]
  · rw [RbmSpinSymm.WBare, hperm, hdiv, hmod]

/-- Witness for the amended claim C2, at the chain of length 2 with two
channels, `i = 0`, `g = 1`, `f = 1`. -/
theorem bare_expansion_witness :
    1 < (hypercubeRbm 2 1 2 true true 0 (fun _ => 0) (fun _ _ => 0)).permsize
      ∧ ((mChain2 pIdx).aBare 0 = (mChain2 pIdx).asymm
          ∧ (mChain2 pIdx).bBare
              ((hypercubeRbm 2 1 2 true true 0 (fun _ => 0) (fun _ _ => 0)).permsize * 1 + 1)
              = (mChain2 pIdx).bsymm 1
          ∧ (mChain2 pIdx).WBare 0
              ((hypercubeRbm 2 1 2 true true 0 (fun _ => 0) (fun _ _ => 0)).permsize * 1 + 1)
              = (mChain2 pIdx).Wsymm ((mChain2 pIdx).permtable 0 1) 1) :=
  ⟨by norm_num [hypercubeRbm],
    bare_expansion (hypercubeRbm 2 1 2 true true 0 (fun _ => 0) (fun _ _ => 0))
      pIdx 0 1 1 (by norm_num [hypercubeRbm])⟩

/-- A single-point update inside a weighted range sum. -/
lemma sum_mul_update (n a : ℕ) (x : ℝ) (f v : ℕ → ℝ) (ha : a < n) :
    ∑ i in Finset.range n, f i * Function.update v a x i
      = (∑ i in Finset.range n, f i * v i) + f a * (x - v a) := by
  have hmem : a ∈ Finset.range n := Finset.mem_range.mpr ha
  rw [← Finset.add_sum_erase _ (fun i => f i * Function.update v a x i) hmem,
    ← Finset.add_sum_erase _ (fun i => f i * v i) hmem]
  have herase : ∑ i in (Finset.range n).erase a, f i * Function.update v a x i
      = ∑ i in (Finset.range n).erase a, f i * v i := by
    refine Finset.sum_congr rfl ?_
    intro i hi
    rw [Function.update_noteq (Finset.ne_of_mem_erase hi)]
  rw [herase, Function.update_same]
  ring

/-- A list of updates at pairwise distinct in-range sites inside a weighted
range sum. -/
lemma sum_mul_updates (n : ℕ) (f : ℕ → ℝ) (qs : List (ℕ × ℝ)) :
    ∀ v : ℕ → ℝ, (qs.map Prod.fst).Nodup → (∀ q ∈ qs, q.1 < n) →
      ∑ i in Finset.range n,
          f i * (qs.foldl (fun w q => Function.update w q.1 q.2) v) i
        = (∑ i in Finset.range n, f i * v i)
            + (qs.map (fun q => f q.1 * (q.2 - v q.1))).sum := by
  induction qs with
  | nil => intro v _ _; simp
  | cons q qs ih =>
    intro v hnd hlt
    have hnd0 : q.1 ∉ qs.map Prod.fst ∧ (qs.map Prod.fst).Nodup := by
      rw [List.map_cons, List.nodup_cons] at hnd
      exact hnd
    have hq : q.1 < n := hlt q (List.mem_cons_self _ _)
    simp only [List.foldl_cons, List.map_cons, List.sum_cons]
    rw [ih (Function.update v q.1 q.2) hnd0.2
        (fun r hr => hlt r (List.mem_cons_of_mem _ hr)),
      sum_mul_update n q.1 q.2 f v hq]
    have hrest : qs.map (fun r => f r.1 * (r.2 - Function.update v q.1 q.2 r.1))
        = qs.map (fun r => f r.1 * (r.2 - v r.1)) := by
      refine List.map_congr_left ?_
      intro r hr
      have hne : r.1 ≠ q.1 := by
        intro he
        exact hnd0.1 (he ▸ List.mem_map_of_mem Prod.fst hr)
      rw [Function.update_noteq hne]
    rw [hrest]
    ring

/-- Claim C6: with a lookup freshly initialised by `InitLookup`, the
single-move `LogValDiff` overload equals `LogVal` after the move minus
`LogVal` before it, exactly, for any move touching pairwise distinct
in-range sites. -/
theorem logValDiffLt_consistent (m : RbmSpinSymm) (v : ℕ → ℝ) (tc : List ℕ)
    (nc : List ℝ) (hnd : tc.Nodup) (hlt : ∀ s ∈ tc, s < m.nv)
    (hlen : nc.length = tc.length) :
    m.logValDiffLt v tc nc (m.initLookup v)
      = m.logVal (updateConf v tc nc) - m.logVal v := by
  by_cases hemp : tc = []
  · subst hemp
    simp [RbmSpinSymm.logValDiffLt, updateConf]
  · have hfst : (tc.zip nc).map Prod.fst = tc :=
      List.map_fst_zip tc nc (by omega)
    have hnd' : ((tc.zip nc).map Prod.fst).Nodup := by rw [hfst]; exact hnd
    have hql : ∀ q ∈ tc.zip nc, q.1 < m.nv :=
      fun q hq => hlt q.1 (List.of_mem_zip hq).1
    have htheta : ∀ j, m.theta (updateConf v tc nc) j
        = m.theta v j
          + ((tc.zip nc).map (fun q => m.WBare q.1 j * (q.2 - v q.1))).sum := by
      intro j
      simp only [RbmSpinSymm.theta, updateConf]
      rw [sum_mul_updates m.nv (fun i => m.WBare i j) (tc.zip nc) v hnd' hql]
      ring
    have ha : ∑ i in Finset.range m.nv, updateConf v tc nc i * m.aBare i
        = (∑ i in Finset.range m.nv, v i * m.aBare i)
          + ((tc.zip nc).map (fun q => m.aBare q.1 * (q.2 - v q.1))).sum := by
      have h1 : ∀ w : ℕ → ℝ, ∑ i in Finset.range m.nv, w i * m.aBare i
          = ∑ i in Finset.range m.nv, m.aBare i * w i := by
        intro w
        exact Finset.sum_congr rfl fun i _ => mul_comm _ _
      rw [h1, h1 v]
      simp only [updateConf]
      rw [sum_mul_updates m.nv m.aBare (tc.zip nc) v hnd' hql]
    have hU : ∑ j in Finset.range m.nh, lncosh (m.theta (updateConf v tc nc) j)
        = ∑ j in Finset.range m.nh,
            lncosh (m.initLookup v j
              + ((tc.zip nc).map (fun q => m.WBare q.1 j * (q.2 - v q.1))).sum) := by
      refine Finset.sum_congr rfl ?_
      intro j _
      rw [htheta j]
      rfl
    rw [RbmSpinSymm.logValDiffLt, if_neg hemp]
    show _ = m.logVal (updateConf v tc nc) - m.logVal v
    rw [RbmSpinSymm.logVal, RbmSpinSymm.logVal, ha, hU]
    simp only [RbmSpinSymm.initLookup]
    ring

/-- Witness for claim C6: the chain of length 4 with zero parameters, the
configuration `(+1, +1, -1, -1)`, and the single move flipping site 0. -/
theorem logValDiffLt_consistent_witness :
    mZero4.logValDiffLt vInit4 [0] [-1] (mZero4.initLookup vInit4)
      = mZero4.logVal (updateConf vInit4 [0] [-1]) - mZero4.logVal vInit4 :=
  logValDiffLt_consistent mZero4 vInit4 [0] [-1] (by decide) (by decide) rfl

/-- Both acceptance branches of a proposal bump the moves counter once. -/
lemma proposalStep_moves {Λ : Type} (ctx : SamplerCtx Λ) (s : SState Λ)
    (d : Draw) : (proposalStep ctx s d).moves = s.moves + 1 := by
  simp only [proposalStep]
  split <;> rfl

/-- Folding proposals adds the list length to the moves counter. -/
lemma foldl_proposalStep_moves {Λ : Type} (ctx : SamplerCtx Λ)
    (draws : ℕ → Draw) (l : List ℕ) :
    ∀ st : SState Λ,
      (l.foldl (fun s i => proposalStep ctx s (draws i)) st).moves
        = st.moves + l.length := by
  induction l with
  | nil => intro st; simp
  | cons a l ih =>
    intro st
    rw [List.foldl_cons, ih, proposalStep_moves]
    simp [Nat.add_assoc, Nat.add_comm 1 l.length]

/-- The resample loop returns a value different from the current one as
soon as some draw differs. -/
lemma pickNewconf_ne (ls : List ℝ) (cur : ℝ) (states : ℕ → ℕ)
    (h : ∃ t, ls.getD (states t) 0 ≠ cur) :
    pickNewconf ls cur states ≠ cur := by
  rw [pickNewconf, dif_pos h]
  exact Nat.find_spec h

/-- The resample loop returns an element of the local alphabet when the
drawn indices are in range. -/
lemma pickNewconf_mem (ls : List ℝ) (cur : ℝ) (states : ℕ → ℕ)
    (h : ∃ t, ls.getD (states t) 0 ≠ cur)
    (hr : ∀ t, states t < ls.length) :
    pickNewconf ls cur states ∈ ls := by
  rw [pickNewconf, dif_pos h,
    List.getD_eq_getElem (l := ls) (d := 0) (hr (Nat.find h))]
  exact List.getElem_mem _

/-- Claim C5: a sweep performs exactly `nv_` proposals, incrementing the
moves counter by exactly `nv_`; each proposal equals the specification step
(site, resampled value, acceptance with probability `min(1, |exp(Delta)|^2)`
against a uniform variate in `[0,1)`, lookup and configuration update and
accept bump on acceptance); and the reject-and-resample loop yields a value
that differs from the current one and lies in the local alphabet. -/
theorem sweep_characterisation {Λ : Type} (ctx : SamplerCtx Λ)
    (st s' : SState Λ) (draws : ℕ → Draw) (i : ℕ) (cur : ℝ)
    (_hu0 : 0 ≤ (draws i).u) (hu1 : (draws i).u < 1)
    (hdiff : ∀ x : ℝ, ∃ t, ctx.localstates.getD ((draws i).states t) 0 ≠ x)
    (hrange : ∀ t, (draws i).states t < ctx.localstates.length) :
    (sweep ctx st draws).moves = st.moves + ctx.nv
      ∧ proposalStep ctx s' (draws i)
          = sweepStepSpec ctx s' (draws i).site
              (pickNewconf ctx.localstates (s'.v (draws i).site) (draws i).states)
              (draws i).u
      ∧ pickNewconf ctx.localstates cur (draws i).states ≠ cur
      ∧ pickNewconf ctx.localstates cur (draws i).states ∈ ctx.localstates := by
  refine ⟨?_, ?_, pickNewconf_ne _ _ _ (hdiff cur),
    pickNewconf_mem _ _ _ (hdiff cur) hrange⟩
  · rw [sweep, foldl_proposalStep_moves, List.length_range]
  · by_cases hacc :
      Real.exp (ctx.logValDiff s'.v [(draws i).site]
          [pickNewconf ctx.localstates (s'.v (draws i).site) (draws i).states]
          s'.lt) ^ 2 > (draws i).u
    · simp only [proposalStep, sweepStepSpec]
      rw [if_pos hacc, if_pos (lt_min hu1 hacc)]
    · simp only [proposalStep, sweepStepSpec]
      rw [if_neg hacc,
        if_neg (fun hc => hacc (lt_of_lt_of_le hc (min_le_right _ _)))]

/-- Witness for claim C5: the length-4 chain with zero parameters, the
draw list `draws4`, proposal index 0, current value 5. -/
theorem sweep_characterisation_witness :
    (sweep (rbmCtx mZero4) stInit4 draws4).moves
        = stInit4.moves + (rbmCtx mZero4).nv
      ∧ proposalStep (rbmCtx mZero4) stInit4 (draws4 0)
          = sweepStepSpec (rbmCtx mZero4) stInit4 (draws4 0).site
              (pickNewconf (rbmCtx mZero4).localstates
                (stInit4.v (draws4 0).site) (draws4 0).states)
              (draws4 0).u
      ∧ pickNewconf (rbmCtx mZero4).localstates 5 (draws4 0).states ≠ 5
      ∧ pickNewconf (rbmCtx mZero4).localstates 5 (draws4 0).states
          ∈ (rbmCtx mZero4).localstates :=
  sweep_characterisation (rbmCtx mZero4) stInit4 stInit4 draws4 0 5
    (by norm_num [draws4]) (by norm_num [draws4])
    (by
      intro x
      rcases eq_or_ne x (-1) with hx | hx
      · exact ⟨1, by norm_num [draws4, rbmCtx, hx]⟩
      · exact ⟨0, by simpa [draws4, rbmCtx] using hx.symm⟩)
    (by intro t; simp [draws4, rbmCtx]; omega)

/-- The resample loop returns the first draw when it already differs. -/
lemma pickNewconf_first (ls : List ℝ) (cur : ℝ) (states : ℕ → ℕ)
    (h0 : ls.getD (states 0) 0 ≠ cur) :
    pickNewconf ls cur states = ls.getD (states 0) 0 := by
  have h : ∃ t, ls.getD (states t) 0 ≠ cur := ⟨0, h0⟩
  rw [pickNewconf, dif_pos h, (Nat.find_eq_zero h).mpr h0]

/-- The resample loop rejects an equal first draw and returns a differing
second draw. -/
lemma pickNewconf_second (ls : List ℝ) (cur : ℝ) (states : ℕ → ℕ)
    (h0 : ls.getD (states 0) 0 = cur) (h1 : ls.getD (states 1) 0 ≠ cur) :
    pickNewconf ls cur states = ls.getD (states 1) 0 := by
  have h : ∃ t, ls.getD (states t) 0 ≠ cur := ⟨1, h1⟩
  have hf : Nat.find h = 1 := by
    rw [Nat.find_eq_iff]
    refine ⟨h1, ?_⟩
    intro n hn
    have hn0 : n = 0 := by omega
    subst hn0
    exact not_not_intro h0
  rw [pickNewconf, dif_pos h, hf]

/-- On the zero-parameter machine every log-ratio vanishes. -/
lemma mZero4_logValDiff (v : ℕ → ℝ) (tc : List ℕ) (nc : List ℝ)
    (lt : ℕ → ℝ) : mZero4.logValDiffLt v tc nc lt = 0 := by
  rw [RbmSpinSymm.logValDiffLt]
  split
  · rfl
  · have hW : ∀ j,
        ((tc.zip nc).map (fun q => mZero4.WBare q.1 j * (q.2 - v q.1))).sum
          = 0 := by
      intro j
      have hmap : (tc.zip nc).map (fun q => mZero4.WBare q.1 j * (q.2 - v q.1))
          = (tc.zip nc).map (fun _ => 0) := by
        refine List.map_congr_left ?_
        intro q _
        norm_num [mZero4, hypercubeRbm, RbmSpinSymm.WBare]
      rw [hmap]
      simp
    have ha : ((tc.zip nc).map (fun q => mZero4.aBare q.1 * (q.2 - v q.1))).sum
        = 0 := by
      have hmap : (tc.zip nc).map (fun q => mZero4.aBare q.1 * (q.2 - v q.1))
          = (tc.zip nc).map (fun _ => 0) := by
        refine List.map_congr_left ?_
        intro q _
        norm_num [mZero4, hypercubeRbm, RbmSpinSymm.aBare]
      rw [hmap]
      simp
    rw [ha]
    simp [hW]

/-- On the zero-parameter machine a proposal with a uniform draw below 1 is
always accepted, producing the updated state. -/
lemma mZero4_step (s : SState (ℕ → ℝ)) (d : Draw) (hd : d.u < 1) :
    proposalStep (rbmCtx mZero4) s d
      = ⟨updateConf s.v [d.site] [pickNewconf [-1, 1] (s.v d.site) d.states],
          (rbmCtx mZero4).updateLookup s.v [d.site]
            [pickNewconf [-1, 1] (s.v d.site) d.states] s.lt,
          s.accept + 1, s.moves + 1⟩ := by
  have heq : (rbmCtx mZero4).logValDiff = mZero4.logValDiffLt := rfl
  have hacc : Real.exp ((rbmCtx mZero4).logValDiff s.v [d.site]
      [pickNewconf (rbmCtx mZero4).localstates (s.v d.site) d.states] s.lt) ^ 2
        > d.u := by
    rw [heq, mZero4_logValDiff, Real.exp_zero, one_pow]
    exact hd
  simp only [proposalStep]
  rw [if_pos hacc]
  rfl

/-- Claim C4, counterexample: on the length-4 chain with the zero machine,
starting from the reachable zero-magnetization configuration
`(+1, +1, -1, -1)`, one `Sweep` (four accepted local proposals: site 0
once, site 1 three times) ends at `(-1, -1, -1, -1)`, so the total
magnetization changes from 0 to -4. -/
theorem sweep_total_sz_not_invariant :
    (∑ i in Finset.range 4, (sweep (rbmCtx mZero4) stInit4 draws4).v i)
      ≠ ∑ i in Finset.range 4, stInit4.v i := by
  have hu : ∀ i, (draws4 i).u < 1 := by
    intro i
    norm_num [draws4]
  have hsweep : sweep (rbmCtx mZero4) stInit4 draws4
      = proposalStep (rbmCtx mZero4)
          (proposalStep (rbmCtx mZero4)
            (proposalStep (rbmCtx mZero4)
              (proposalStep (rbmCtx mZero4) stInit4 (draws4 0)) (draws4 1))
            (draws4 2)) (draws4 3) := by
    have h4 : (rbmCtx mZero4).nv = 4 := by
      norm_num [rbmCtx, mZero4, hypercubeRbm]
    rw [sweep, h4]
    rfl
  rw [hsweep, mZero4_step stInit4 (draws4 0) (hu 0),
    mZero4_step _ (draws4 1) (hu 1), mZero4_step _ (draws4 2) (hu 2),
    mZero4_step _ (draws4 3) (hu 3)]
  dsimp only
  have hp1 : pickNewconf [-1, 1] (stInit4.v (draws4 0).site) (draws4 0).states
      = -1 := by
    rw [pickNewconf_first _ _ _ (by norm_num [draws4, stInit4, vInit4])]
    norm_num [draws4]
  rw [hp1]
  have hw1 : updateConf stInit4.v [(draws4 0).site] [-1] (draws4 1).site
      = 1 := by
    simp [updateConf, draws4, stInit4, vInit4, Function.update]
  have hp2 : pickNewconf [-1, 1]
      (updateConf stInit4.v [(draws4 0).site] [-1] (draws4 1).site)
      (draws4 1).states = -1 := by
    rw [hw1, pickNewconf_first _ _ _ (by norm_num [draws4])]
    norm_num [draws4]
  rw [hp2]
  have hw2 : updateConf (updateConf stInit4.v [(draws4 0).site] [-1])
      [(draws4 1).site] [-1] (draws4 2).site = -1 := by
    simp [updateConf, draws4, stInit4, vInit4, Function.update]
  have hp3 : pickNewconf [-1, 1]
      (updateConf (updateConf stInit4.v [(draws4 0).site] [-1])
        [(draws4 1).site] [-1] (draws4 2).site)
      (draws4 2).states = 1 := by
    rw [hw2, pickNewconf_second _ _ _ (by norm_num [draws4])
      (by norm_num [draws4])]
    norm_num [draws4]
  rw [hp3]
  have hw3 : updateConf (updateConf (updateConf stInit4.v
      [(draws4 0).site] [-1]) [(draws4 1).site] [-1]) [(draws4 2).site] [1]
      (draws4 3).site = 1 := by
    simp [updateConf, draws4, stInit4, vInit4, Function.update]
  have hp4 : pickNewconf [-1, 1]
      (updateConf (updateConf (updateConf stInit4.v [(draws4 0).site] [-1])
        [(draws4 1).site] [-1]) [(draws4 2).site] [1] (draws4 3).site)
      (draws4 3).states = -1 := by
    rw [hw3, pickNewconf_first _ _ _ (by norm_num [draws4])]
    norm_num [draws4]
  rw [hp4]
  simp only [updateConf, List.zip, List.zipWith, List.foldl,
    Finset.sum_range_succ, Finset.sum_range_zero, draws4, stInit4, vInit4]
  norm_num [Function.update, vInit4]

/-- A single-point update inside a plain range sum. -/
lemma sum_update_range (n a : ℕ) (x : ℝ) (v : ℕ → ℝ) (ha : a < n) :
    ∑ i in Finset.range n, Function.update v a x i
      = (∑ i in Finset.range n, v i) + (x - v a) := by
  have h := sum_mul_update n a x (fun _ => (1 : ℝ)) v ha
  simpa using h

/-- Claim C4, amended: a rejected proposal leaves the total magnetization
unchanged, and an accepted proposal at site `s` with resampled value `l`
changes it by exactly `l - v s` (which the resample loop keeps nonzero), so
a sweep preserves the total-Sz constraint only when the accepted changes
cancel; `MetropolisLocal` does not preserve the constraint in general. -/
theorem proposalStep_sum_change {Λ : Type} (ctx : SamplerCtx Λ)
    (st : SState Λ) (d : Draw) (hsite : d.site < ctx.nv) :
    ∑ i in Finset.range ctx.nv, (proposalStep ctx st d).v i
      = (∑ i in Finset.range ctx.nv, st.v i)
        + (if Real.exp (ctx.logValDiff st.v [d.site]
              [pickNewconf ctx.localstates (st.v d.site) d.states] st.lt) ^ 2
              > d.u
           then pickNewconf ctx.localstates (st.v d.site) d.states
                  - st.v d.site
           else 0) := by
  simp only [proposalStep]
  split
  · dsimp only
    rw [show updateConf st.v [d.site]
          [pickNewconf ctx.localstates (st.v d.site) d.states]
        = Function.update st.v d.site
            (pickNewconf ctx.localstates (st.v d.site) d.states) from rfl]
    rw [sum_update_range ctx.nv d.site _ st.v hsite]
  · dsimp only
    rw [add_zero]

/-- Witness for the amended claim C4, at the length-4 chain, the state
`(+1, +1, -1, -1)` and the first draw of `draws4`. -/
theorem proposalStep_sum_change_witness :
    (draws4 0).site < (rbmCtx mZero4).nv
      ∧ ∑ i in Finset.range (rbmCtx mZero4).nv,
            (proposalStep (rbmCtx mZero4) stInit4 (draws4 0)).v i
          = (∑ i in Finset.range (rbmCtx mZero4).nv, stInit4.v i)
            + (if Real.exp ((rbmCtx mZero4).logValDiff stInit4.v
                  [(draws4 0).site]
                  [pickNewconf (rbmCtx mZero4).localstates
                    (stInit4.v (draws4 0).site) (draws4 0).states]
                  stInit4.lt) ^ 2 > (draws4 0).u
               then pickNewconf (rbmCtx mZero4).localstates
                      (stInit4.v (draws4 0).site) (draws4 0).states
                      - stInit4.v (draws4 0).site
               else 0) :=
  ⟨by norm_num [draws4, rbmCtx, mZero4, hypercubeRbm],
    proposalStep_sum_change (rbmCtx mZero4) stInit4 (draws4 0)
      (by norm_num [draws4, rbmCtx, mZero4, hypercubeRbm])⟩

/-- Claim C8, counterexample: for `N = 3` spins with constraint
`S_z = 1/2`, the counts `N/2 + S_z = 2` and `N/2 - S_z = 1` are integers,
yet the integer-arithmetic guard of `Spin::RandomVals` aborts. -/
theorem randomVals_aborts_on_feasible :
    randomValsAborts 3 (1 / 2) = true
      ∧ (3 : ℚ) / 2 + 1 / 2 = ((2 : ℤ) : ℚ)
      ∧ (3 : ℚ) / 2 - 1 / 2 = ((1 : ℤ) : ℚ) := by
  have hhalf : cppInt (1 / 2) = 0 := by
    rw [cppInt, if_pos (by norm_num)]
    rw [Int.floor_eq_iff]
    norm_num
  have hone : cppInt (2 * (1 / 2)) = 1 := by
    rw [show (2 : ℚ) * (1 / 2) = 1 by norm_num, cppInt,
      if_pos (by norm_num)]
    exact Int.floor_one
  refine ⟨?_, by norm_num, by norm_num⟩
  simp only [randomValsAborts, spinNup, spinNdown, hhalf, hone,
    decide_eq_true_eq]
  norm_num

/-- Claim C8, amended: for spin one-half with total-Sz constraint the code
computes `nup = floor(N/2) + trunc(Sz)` and `ndown = N - nup` with integer
arithmetic and aborts iff `nup - ndown` differs from `trunc(2*Sz)`; when it
does not abort (and `0 <= nup <= N`), the output — the fixed vector of
`nup` up-spins followed by down-spins, composed with any shuffle
permutation of the sites — has exactly `nup` entries `+1`, `N - nup`
entries `-1`, and total magnetization `trunc(2*Sz)`. -/
theorem randomVals_spinhalf (n : ℕ) (Sz : ℚ) (σ : Equiv.Perm ℕ)
    (hab : randomValsAborts n Sz = false)
    (h0 : 0 ≤ spinNup n Sz) (hn : spinNup n Sz ≤ n)
    (hσ : ∀ i < n, σ i < n) (hσ' : ∀ i < n, σ.symm i < n) :
    ((Finset.range n).filter (fun i => spinBase n Sz (σ i) = 1)).card
        = (spinNup n Sz).toNat
      ∧ ((Finset.range n).filter (fun i => spinBase n Sz (σ i) = -1)).card
          = n - (spinNup n Sz).toNat
      ∧ ∑ i in Finset.range n, spinBase n Sz (σ i)
          = ((cppInt (2 * Sz) : ℤ) : ℝ) := by
  have hab' : spinNup n Sz - spinNdown n Sz = cppInt (2 * Sz) := by
    simpa [randomValsAborts] using hab
  have hbij : ∀ c : ℝ,
      ((Finset.range n).filter (fun i => spinBase n Sz (σ i) = c)).card
        = ((Finset.range n).filter (fun j => spinBase n Sz j = c)).card := by
    intro c
    refine Finset.card_nbij' (fun i => σ i) (fun j => σ.symm j) ?_ ?_ ?_ ?_
    · intro a ha
      rw [Finset.mem_filter, Finset.mem_range] at ha ⊢
      exact ⟨hσ a ha.1, ha.2⟩
    · intro a ha
      rw [Finset.mem_filter, Finset.mem_range] at ha ⊢
      refine ⟨hσ' a ha.1, ?_⟩
      rw [Equiv.apply_symm_apply]
      exact ha.2
    · intro a _
      exact σ.symm_apply_apply a
    · intro a _
      exact σ.apply_symm_apply a
  have hfilter1 : (Finset.range n).filter (fun j => spinBase n Sz j = 1)
      = Finset.range (spinNup n Sz).toNat := by
    ext j
    simp only [Finset.mem_filter, Finset.mem_range, spinBase]
    constructor
    · rintro ⟨hj, hbase⟩
      by_cases hlt : (j : ℤ) < spinNup n Sz
      · omega
      · rw [if_neg hlt] at hbase
        norm_num at hbase
    · intro hj
      have hlt : (j : ℤ) < spinNup n Sz := by omega
      have hjn : j < n := by omega
      exact ⟨hjn, if_pos hlt⟩
  have hfilter2 : ((Finset.range n).filter (fun j => spinBase n Sz j = -1)).card
      = n - (spinNup n Sz).toNat := by
    have hf2 : (Finset.range n).filter (fun j => spinBase n Sz j = -1)
        = (Finset.range n).filter (fun j => ¬ spinBase n Sz j = 1) := by
      refine Finset.filter_congr ?_
      intro j _
      simp only [spinBase]
      by_cases hlt : (j : ℤ) < spinNup n Sz <;>
        simp [hlt] <;> norm_num
    have htot := Finset.filter_card_add_filter_neg_card_eq_card
      (s := Finset.range n) (fun j => spinBase n Sz j = 1)
    rw [hf2]
    rw [hfilter1, Finset.card_range] at htot
    rw [Finset.card_range] at htot
    omega
  refine ⟨by rw [hbij, hfilter1, Finset.card_range], by rw [hbij]; exact hfilter2, ?_⟩
  · have hsum1 : ∑ i in Finset.range n, spinBase n Sz (σ i)
        = ∑ j in Finset.range n, spinBase n Sz j := by
      refine Finset.sum_nbij' (fun i => σ i) (fun j => σ.symm j) ?_ ?_ ?_ ?_ ?_
      · intro a ha
        rw [Finset.mem_range] at ha ⊢
        exact hσ a ha
      · intro a ha
        rw [Finset.mem_range] at ha ⊢
        exact hσ' a ha
      · intro a _
        exact σ.symm_apply_apply a
      · intro a _
        exact σ.apply_symm_apply a
      · intro a _
        rfl
    have hsum2 : ∑ j in Finset.range n, spinBase n Sz j
        = ((spinNup n Sz).toNat : ℝ) * 1
            + ((n - (spinNup n Sz).toNat : ℕ) : ℝ) * (-1) := by
      simp only [spinBase]
      rw [Finset.sum_ite]
      rw [Finset.sum_const, Finset.sum_const]
      have hc1 : ((Finset.range n).filter (fun j : ℕ => (j : ℤ) < spinNup n Sz)).card
          = (spinNup n Sz).toNat := by
        have hcong : (Finset.range n).filter (fun j : ℕ => (j : ℤ) < spinNup n Sz)
            = (Finset.range n).filter (fun j => spinBase n Sz j = 1) := by
          refine Finset.filter_congr ?_
          intro j _
          simp only [spinBase]
          constructor
          · intro hlt
            rw [if_pos hlt]
          · intro hbase
            by_cases hlt : (j : ℤ) < spinNup n Sz
            · exact hlt
            · rw [if_neg hlt] at hbase
              norm_num at hbase
        rw [hcong, hfilter1, Finset.card_range]
      have hc2 : ((Finset.range n).filter (fun j : ℕ => ¬ (j : ℤ) < spinNup n Sz)).card
          = n - (spinNup n Sz).toNat := by
        have htot := Finset.filter_card_add_filter_neg_card_eq_card
          (s := Finset.range n) (fun j : ℕ => (j : ℤ) < spinNup n Sz)
        rw [hc1, Finset.card_range] at htot
        omega
      rw [hc1, hc2]
      simp [nsmul_eq_mul]
    rw [hsum1, hsum2]
    have hup : ((spinNup n Sz).toNat : ℤ) = spinNup n Sz :=
      Int.toNat_of_nonneg h0
    have hgoal : (2 : ℤ) * spinNup n Sz - n = cppInt (2 * Sz) := by
      rw [spinNdown] at hab'
      omega
    have hcast : ((n - (spinNup n Sz).toNat : ℕ) : ℝ)
        = (n : ℝ) - ((spinNup n Sz).toNat : ℝ) := by
      have hle : (spinNup n Sz).toNat ≤ n := by omega
      push_cast [hle]
      ring
    have hx : ((spinNup n Sz).toNat : ℝ) = ((spinNup n Sz : ℤ) : ℝ) := by
      exact_mod_cast congrArg (fun z : ℤ => (z : ℝ)) hup
    have hfin : ((cppInt (2 * Sz) : ℤ) : ℝ)
        = 2 * ((spinNup n Sz : ℤ) : ℝ) - n := by
      rw [← hgoal]
      push_cast
      ring
    rw [hcast, hx, hfin]
    ring

/-- Witness for the amended claim C8: `N = 4`, `S_z = 1`, identity shuffle:
3 up-spins, 1 down-spin, magnetization 2. -/
theorem randomVals_spinhalf_witness :
    ((Finset.range 4).filter (fun i => spinBase 4 1 ((Equiv.refl ℕ) i) = 1)).card
        = (spinNup 4 1).toNat
      ∧ ((Finset.range 4).filter (fun i => spinBase 4 1 ((Equiv.refl ℕ) i) = -1)).card
          = 4 - (spinNup 4 1).toNat
      ∧ ∑ i in Finset.range 4, spinBase 4 1 ((Equiv.refl ℕ) i)
          = ((cppInt (2 * 1) : ℤ) : ℝ) :=
  have hone : cppInt 1 = 1 := by
    rw [cppInt, if_pos (by norm_num)]
    exact Int.floor_one
  have htwo : cppInt (2 * 1) = 2 := by
    rw [show (2 : ℚ) * 1 = ((2 : ℤ) : ℚ) by norm_num, cppInt,
      if_pos (by norm_num)]
    exact Int.floor_intCast 2
  have hup : spinNup 4 1 = 3 := by
    rw [spinNup, hone]
    norm_num
  randomVals_spinhalf 4 1 (Equiv.refl ℕ)
    (by
      simp only [randomValsAborts, spinNup, spinNdown, hone, htwo,
        decide_eq_false_iff_not]
      norm_num)
    (by rw [hup]; norm_num) (by rw [hup]; norm_num)
    (by intro i hi; simpa using hi) (by intro i hi; simpa using hi)

/-- The stable form of the specification computes the logarithm of the
hyperbolic cosine. -/
lemma lncosh_eq (x : ℝ) : lncosh x = Real.log (Real.cosh x) := by
  have h1 : (0 : ℝ) < (1 + Real.exp (-2 * |x|)) / 2 := by positivity
  rw [lncosh]
  nth_rewrite 1 [← Real.log_exp |x|]
  rw [← Real.log_mul (Real.exp_ne_zero _) (ne_of_gt h1), ← Real.cosh_abs x,
    Real.cosh_eq]
  congr 1
  field_simp
  rw [mul_add, mul_one, ← Real.exp_add]
  have harg : |x| + -(2 * |x|) = -|x| := by ring
  rw [harg]

/-- Source: `lncosh` differentiates to the hyperbolic tangent. -/
lemma hasDerivAt_lncosh (x : ℝ) : HasDerivAt lncosh (Real.tanh x) x := by
  have h : HasDerivAt (fun y => Real.log (Real.cosh y))
      (Real.sinh x / Real.cosh x) x :=
    (Real.hasDerivAt_cosh x).log (ne_of_gt (Real.cosh_pos x))
  rw [← Real.tanh_eq_sinh_div_cosh] at h
  have hfun : (fun y => Real.log (Real.cosh y)) = lncosh := by
    funext y
    rw [lncosh_eq]
  rw [hfun] at h
  exact h

/-- The hyperbolic tangent of 3 is positive. -/
lemma tanh_three_pos : 0 < Real.tanh 3 := by
  rw [Real.tanh_eq_sinh_div_cosh]
  exact div_pos (Real.sinh_pos_iff.mpr (by norm_num)) (Real.cosh_pos 3)

/-- Claim C1 (code bug): on the periodic chain of length 2 with two feature
channels and reduced parameters `(asymm, bsymm, Wsymm) = (0, (1,1), ones)`,
at the all-ones configuration, the true partial derivative of `LogVal` with
respect to reduced parameter 2 (the hidden bias `bsymm_(1)`) is
`2 * tanh 3 > 0`, but `DerLog` returns 0 in component 2: the hidden-bias
block of `DerMatSymm_` computes its row from the loop-invariant counter `k`
instead of the bare index `p`, so every hidden-bias derivative is routed to
the row of `bsymm_(0)` and the rows of the remaining channels stay zero. -/
theorem derLog_not_gradient :
    HasDerivAt
        (fun t : ℝ =>
          (mChain2 (fun k => if k = 2 then t else pOneB k)).logVal vOne)
        (2 * Real.tanh 3) (pOneB 2)
      ∧ (mChain2 pOneB).derLog vOne 2 = 0
      ∧ (2 : ℝ) * Real.tanh 3 ≠ 0 := by
  refine ⟨?_, ?_, ne_of_gt (mul_pos two_pos tanh_three_pos)⟩
  · have h1 : (fun t : ℝ =>
        (mChain2 (fun k => if k = 2 then t else pOneB k)).logVal vOne)
        = fun t : ℝ => lncosh 3 + lncosh 3 + (lncosh (2 + t) + lncosh (2 + t)) := by
      funext t
      simp only [RbmSpinSymm.logVal, RbmSpinSymm.theta, RbmSpinSymm.aBare,
        RbmSpinSymm.bBare, RbmSpinSymm.WBare, RbmSpinSymm.nh, mChain2,
        RbmSpinSymm.setParameters, hypercubeRbm, symmTable, fromCoord,
        coordOf, vOne, pOneB, show (2 : ℕ) ^ 1 = 2 from rfl,
        show (2 : ℕ) * 2 = 4 from rfl, Finset.sum_range_succ,
        Finset.sum_range_zero]
      norm_num
      ring_nf
    have hd1 : HasDerivAt (fun t : ℝ => lncosh (2 + t)) (Real.tanh 3) 1 := by
      have hcomp : HasDerivAt (fun t : ℝ => 2 + t) 1 1 := by
        simpa using (hasDerivAt_id (1 : ℝ)).const_add (2 : ℝ)
      have hc := (hasDerivAt_lncosh (2 + 1)).comp (1 : ℝ) hcomp
      simp only [Function.comp] at hc
      norm_num at hc
      exact hc
    have hbig : HasDerivAt
        (fun t : ℝ => lncosh 3 + lncosh 3 + (lncosh (2 + t) + lncosh (2 + t)))
        (Real.tanh 3 + Real.tanh 3) 1 :=
      (hd1.add hd1).const_add (lncosh 3 + lncosh 3)
    rw [h1, show pOneB 2 = (1 : ℝ) from rfl,
      show (2 : ℝ) * Real.tanh 3 = Real.tanh 3 + Real.tanh 3 by ring]
    exact hbig
  · have hnb : (mChain2 pOneB).nbarepar = 14 := by
      norm_num [RbmSpinSymm.nbarepar, RbmSpinSymm.nh, mChain2,
        RbmSpinSymm.setParameters, hypercubeRbm]
    have hd : ∀ c ∈ Finset.range 14, (mChain2 pOneB).derRow c ≠ 2 := by decide
    rw [RbmSpinSymm.derLog, hnb]
    refine Finset.sum_eq_zero ?_
    intro c hc
    have hz : (mChain2 pOneB).DerMatSymm 2 c = 0 := by
      rw [RbmSpinSymm.DerMatSymm, if_neg]
      intro hcon
      exact hd c hc hcon.2.symm
    rw [hz, zero_mul]

/-! Digit arithmetic for the hypercube translation table. -/

/-- Peeling the lowest digit off a recomposition. -/
lemma fromCoord_succ (L d : ℕ) (c : ℕ → ℕ) :
    fromCoord L (d + 1) c = c 0 + L * fromCoord L d (fun k => c (k + 1)) := by
  rw [fromCoord, fromCoord, Finset.sum_range_succ', pow_zero, mul_one,
    Finset.mul_sum, add_comm]
  congr 1
  refine Finset.sum_congr rfl ?_
  intro k _
  rw [pow_succ]
  ring

/-- Digits shift under division by the base. -/
lemma coordOf_succ (L x k : ℕ) : coordOf L x (k + 1) = coordOf L (x / L) k := by
  rw [coordOf, coordOf, Nat.div_div_eq_div_mul, ← pow_succ']

/-- The recomposition of in-range digits is below `L ^ d`. -/
lemma fromCoord_lt (L d : ℕ) (c : ℕ → ℕ) (hL : 0 < L)
    (hc : ∀ k < d, c k < L) : fromCoord L d c < L ^ d := by
  induction d generalizing c with
  | zero => simp [fromCoord]
  | succ d ih =>
    rw [fromCoord, Finset.sum_range_succ]
    have h1 : fromCoord L d c < L ^ d := ih c (fun k hk => hc k (by omega))
    have h2 : c d ≤ L - 1 := by
      have := hc d (by omega)
      omega
    have h3 : c d * L ^ d ≤ (L - 1) * L ^ d :=
      Nat.mul_le_mul_right _ h2
    have h4 : (L - 1) * L ^ d = L * L ^ d - L ^ d := Nat.sub_one_mul _ _
    have h5 : L ^ d ≤ L * L ^ d := Nat.le_mul_of_pos_left _ hL
    have h6 : L ^ (d + 1) = L * L ^ d := by
      rw [pow_succ]
      ring
    rw [fromCoord] at h1
    omega

/-- Digit extraction from a recomposition of in-range digits. -/
lemma coordOf_fromCoord (L d : ℕ) (c : ℕ → ℕ) (hL : 0 < L)
    (hc : ∀ k < d, c k < L) :
    ∀ j < d, coordOf L (fromCoord L d c) j = c j := by
  induction d generalizing c with
  | zero => intro j hj; omega
  | succ d ih =>
    intro j hj
    rw [fromCoord_succ]
    rcases j with - | j'
    · rw [coordOf, pow_zero, Nat.div_one, Nat.add_mul_mod_self_left,
        Nat.mod_eq_of_lt (hc 0 (by omega))]
    · rw [coordOf_succ,
        Nat.add_mul_div_left _ _ hL, Nat.div_eq_of_lt (hc 0 (by omega)),
        Nat.zero_add]
      exact ih (fun k => c (k + 1)) (fun k hk => hc (k + 1) (by omega)) j'
        (by omega)

/-- Every site below `L ^ d` is the recomposition of its digits. -/
lemma fromCoord_coordOf (L d : ℕ) (hL : 0 < L) :
    ∀ x < L ^ d, fromCoord L d (coordOf L x) = x := by
  induction d with
  | zero =>
    intro x hx
    rw [pow_zero] at hx
    interval_cases x
    rfl
  | succ d ih =>
    intro x hx
    rw [fromCoord_succ]
    have hshift : (fun k => coordOf L x (k + 1)) = coordOf L (x / L) := by
      funext k
      rw [coordOf_succ]
    rw [hshift, ih (x / L) ?hlt]
    · rw [coordOf, pow_zero, Nat.div_one, Nat.mod_add_div]
    case hlt =>
      rw [Nat.div_lt_iff_lt_mul hL]
      rw [pow_succ] at hx
      exact hx

/-- Two naturals below the base agree when they agree in `ZMod L`. -/
lemma digit_mod_eq (L : ℕ) (hL : 0 < L) (u v : ℕ) (hv : v < L)
    (h : (u : ZMod L) = (v : ZMod L)) : u % L = v := by
  haveI : NeZero L := ⟨hL.ne'⟩
  have h1 : (u : ZMod L).val = (v : ZMod L).val := by rw [h]
  rw [ZMod.val_natCast, ZMod.val_natCast] at h1
  rw [h1, Nat.mod_eq_of_lt hv]

/-- Adding a digit and its complement cancels modulo the base. -/
lemma mod_cancel (L a b : ℕ) (hL : 0 < L) (ha : a < L) (hb : b < L) :
    ((L - a) % L + (a + b) % L) % L = b := by
  refine digit_mod_eq L hL _ b hb ?_
  push_cast [ZMod.natCast_mod, Nat.cast_sub (le_of_lt ha), ZMod.natCast_self]
  ring

/-- The complement cancels also when added on the inside. -/
lemma mod_cancel' (L a b : ℕ) (hL : 0 < L) (ha : a < L) (hb : b < L) :
    (a + ((L - a) % L + b) % L) % L = b := by
  refine digit_mod_eq L hL _ b hb ?_
  push_cast [ZMod.natCast_mod, Nat.cast_sub (le_of_lt ha), ZMod.natCast_self]
  ring

/-- Translating by `g` and by its inverse in sequence is a translation by
nothing. -/
lemma mod_mix (L x y z : ℕ) (hL : 0 < L) (hx : x < L) :
    ((x + y) % L + ((L - x) % L + z) % L) % L = (y + z) % L := by
  refine digit_mod_eq L hL _ _ (Nat.mod_lt _ hL) ?_
  push_cast [ZMod.natCast_mod, Nat.cast_sub (le_of_lt hx), ZMod.natCast_self]
  ring

/-- The translation table stays within the site range. -/
lemma symmTable_lt (L d g i : ℕ) (hL : 0 < L) : symmTable L d g i < L ^ d :=
  fromCoord_lt L d _ hL (fun _ _ => Nat.mod_lt _ hL)

/-- The inverse translation stays within the site range. -/
lemma negSite_lt (L d g : ℕ) (hL : 0 < L) : negSite L d g < L ^ d :=
  fromCoord_lt L d _ hL (fun _ _ => Nat.mod_lt _ hL)

/-- Digits of a translated site. -/
lemma coordOf_symmTable (L d g i k : ℕ) (hL : 0 < L) (hk : k < d) :
    coordOf L (symmTable L d g i) k = (coordOf L g k + coordOf L i k) % L :=
  coordOf_fromCoord L d _ hL (fun _ _ => Nat.mod_lt _ hL) k hk

/-- Digits of the inverse translation. -/
lemma coordOf_negSite (L d g k : ℕ) (hL : 0 < L) (hk : k < d) :
    coordOf L (negSite L d g) k = (L - coordOf L g k) % L :=
  coordOf_fromCoord L d _ hL (fun _ _ => Nat.mod_lt _ hL) k hk

/-- Translating by `g` and then by its inverse returns the original site. -/
lemma symmTable_cancel (L d g x : ℕ) (hL : 0 < L) (hx : x < L ^ d) :
    symmTable L d (negSite L d g) (symmTable L d g x) = x := by
  have hdig : ∀ k ∈ Finset.range d,
      ((coordOf L (negSite L d g) k + coordOf L (symmTable L d g x) k) % L)
          * L ^ k
        = coordOf L x k * L ^ k := by
    intro k hk
    have hk' := Finset.mem_range.mp hk
    rw [coordOf_symmTable L d g x k hL hk', coordOf_negSite L d g k hL hk']
    congr 1
    exact mod_cancel L _ _ hL (Nat.mod_lt _ hL) (Nat.mod_lt _ hL)
  calc symmTable L d (negSite L d g) (symmTable L d g x)
      = fromCoord L d (coordOf L x) := Finset.sum_congr rfl hdig
    _ = x := fromCoord_coordOf L d hL x hx

/-- Translating by the inverse and then by `g` returns the original site. -/
lemma symmTable_cancel' (L d g x : ℕ) (hL : 0 < L) (hx : x < L ^ d) :
    symmTable L d g (symmTable L d (negSite L d g) x) = x := by
  have hdig : ∀ k ∈ Finset.range d,
      ((coordOf L g k + coordOf L (symmTable L d (negSite L d g) x) k) % L)
          * L ^ k
        = coordOf L x k * L ^ k := by
    intro k hk
    have hk' := Finset.mem_range.mp hk
    rw [coordOf_symmTable L d (negSite L d g) x k hL hk',
      coordOf_negSite L d g k hL hk']
    congr 1
    exact mod_cancel' L _ _ hL (Nat.mod_lt _ hL) (Nat.mod_lt _ hL)
  calc symmTable L d g (symmTable L d (negSite L d g) x)
      = fromCoord L d (coordOf L x) := Finset.sum_congr rfl hdig
    _ = x := fromCoord_coordOf L d hL x hx

/-- Group mixing: a translation of the site and the inverse translation of
the table argument cancel. -/
lemma symmTable_mix (L d g a c : ℕ) (hL : 0 < L) :
    symmTable L d (symmTable L d g a) (symmTable L d (negSite L d g) c)
      = symmTable L d a c := by
  have key : ∀ k ∈ Finset.range d,
      ((coordOf L (symmTable L d g a) k
          + coordOf L (symmTable L d (negSite L d g) c) k) % L) * L ^ k
        = ((coordOf L a k + coordOf L c k) % L) * L ^ k := by
    intro k hk
    have hk' := Finset.mem_range.mp hk
    rw [coordOf_symmTable L d g a k hL hk',
      coordOf_symmTable L d (negSite L d g) c k hL hk',
      coordOf_negSite L d g k hL hk']
    congr 1
    exact mod_mix L _ _ _ hL (Nat.mod_lt _ hL)
  exact Finset.sum_congr rfl key

/-- Permuting the configuration by translation `g` permutes the hidden
activations: activation `j` of the permuted configuration equals
activation `f * G + (g^{-1} . gj)` of the original one, with `f = j / G`
and `gj = j % G`. -/
lemma theta_translation (L d alpha : ℕ) (ua ub : Bool) (a0 : ℝ)
    (b0 : ℕ → ℝ) (W0 : ℕ → ℕ → ℝ) (g j : ℕ) (v : ℕ → ℝ) (hL : 0 < L)
    (_hg : g < L ^ d) :
    (hypercubeRbm L d alpha ua ub a0 b0 W0).theta
        (fun i => v (symmTable L d g i)) j
      = (hypercubeRbm L d alpha ua ub a0 b0 W0).theta v
          (L ^ d * (j / L ^ d) + symmTable L d (negSite L d g) (j % L ^ d)) := by
  have hn : 0 < L ^ d := pow_pos hL d
  have hX : symmTable L d (negSite L d g) (j % L ^ d) < L ^ d :=
    symmTable_lt L d _ _ hL
  have hmod : (L ^ d * (j / L ^ d)
        + symmTable L d (negSite L d g) (j % L ^ d)) % L ^ d
      = symmTable L d (negSite L d g) (j % L ^ d) := by
    rw [Nat.mul_add_mod, Nat.mod_eq_of_lt hX]
  have hdiv : (L ^ d * (j / L ^ d)
        + symmTable L d (negSite L d g) (j % L ^ d)) / L ^ d
      = j / L ^ d := by
    rw [Nat.mul_add_div hn, Nat.div_eq_of_lt hX, Nat.add_zero]
  simp only [RbmSpinSymm.theta, RbmSpinSymm.WBare, RbmSpinSymm.bBare,
    hypercubeRbm]
  rw [hmod, hdiv]
  congr 1
  refine Finset.sum_nbij' (fun a => symmTable L d g a)
    (fun b => symmTable L d (negSite L d g) b) ?_ ?_ ?_ ?_ ?_
  · intro a _
    exact Finset.mem_range.mpr (symmTable_lt L d g a hL)
  · intro b _
    exact Finset.mem_range.mpr (symmTable_lt L d _ b hL)
  · intro a ha
    exact symmTable_cancel L d g a hL (Finset.mem_range.mp ha)
  · intro b hb
    exact symmTable_cancel' L d g b hL (Finset.mem_range.mp hb)
  · intro a _
    rw [symmTable_mix L d g a (j % L ^ d) hL]

/-- Claim C3: for every symmetric RBM built on the periodic hypercube
(edge `L > 0`, dimension `d`), every choice of reduced parameters, every
configuration `v` and every translation `g` of the symmetry table, the
log-amplitude of the permuted configuration equals the log-amplitude of
the original configuration, exactly. -/
theorem logVal_translation_invariant (L d alpha : ℕ) (ua ub : Bool)
    (a0 : ℝ) (b0 : ℕ → ℝ) (W0 : ℕ → ℕ → ℝ) (g : ℕ) (v : ℕ → ℝ)
    (hL : 0 < L) (hg : g < L ^ d) :
    (hypercubeRbm L d alpha ua ub a0 b0 W0).logVal
        (fun i => v (symmTable L d g i))
      = (hypercubeRbm L d alpha ua ub a0 b0 W0).logVal v := by
  have hn : 0 < L ^ d := pow_pos hL d
  have hvis : ∑ i in Finset.range (L ^ d), v (symmTable L d g i) * a0
      = ∑ i in Finset.range (L ^ d), v i * a0 := by
    refine Finset.sum_nbij' (fun a => symmTable L d g a)
      (fun b => symmTable L d (negSite L d g) b) ?_ ?_ ?_ ?_ ?_
    · intro a _
      exact Finset.mem_range.mpr (symmTable_lt L d g a hL)
    · intro b _
      exact Finset.mem_range.mpr (symmTable_lt L d _ b hL)
    · intro a ha
      exact symmTable_cancel L d g a hL (Finset.mem_range.mp ha)
    · intro b hb
      exact symmTable_cancel' L d g b hL (Finset.mem_range.mp hb)
    · intro a _
      rfl
  have hhid : ∑ j in Finset.range (alpha * L ^ d),
        lncosh ((hypercubeRbm L d alpha ua ub a0 b0 W0).theta
          (fun i => v (symmTable L d g i)) j)
      = ∑ j in Finset.range (alpha * L ^ d),
          lncosh ((hypercubeRbm L d alpha ua ub a0 b0 W0).theta v j) := by
    refine Finset.sum_nbij'
      (fun j => L ^ d * (j / L ^ d) + symmTable L d (negSite L d g) (j % L ^ d))
      (fun j => L ^ d * (j / L ^ d) + symmTable L d g (j % L ^ d))
      ?_ ?_ ?_ ?_ ?_
    · intro j hj
      have hj' := Finset.mem_range.mp hj
      have hq : j / L ^ d < alpha := (Nat.div_lt_iff_lt_mul hn).mpr hj'
      have hXlt : symmTable L d (negSite L d g) (j % L ^ d) < L ^ d :=
        symmTable_lt L d _ _ hL
      refine Finset.mem_range.mpr ?_
      have hstep : L ^ d * (j / L ^ d + 1) ≤ L ^ d * alpha :=
        Nat.mul_le_mul_left _ hq
      have hexp : L ^ d * (j / L ^ d + 1) = L ^ d * (j / L ^ d) + L ^ d := by
        ring
      have hcomm : L ^ d * alpha = alpha * L ^ d := Nat.mul_comm _ _
      dsimp only
      omega
    · intro j hj
      have hj' := Finset.mem_range.mp hj
      have hq : j / L ^ d < alpha := (Nat.div_lt_iff_lt_mul hn).mpr hj'
      have hXlt : symmTable L d g (j % L ^ d) < L ^ d :=
        symmTable_lt L d _ _ hL
      refine Finset.mem_range.mpr ?_
      have hstep : L ^ d * (j / L ^ d + 1) ≤ L ^ d * alpha :=
        Nat.mul_le_mul_left _ hq
      have hexp : L ^ d * (j / L ^ d + 1) = L ^ d * (j / L ^ d) + L ^ d := by
        ring
      have hcomm : L ^ d * alpha = alpha * L ^ d := Nat.mul_comm _ _
      dsimp only
      omega
    · intro j _
      have hXlt : symmTable L d (negSite L d g) (j % L ^ d) < L ^ d :=
        symmTable_lt L d _ _ hL
      dsimp only
      rw [Nat.mul_add_div hn, Nat.div_eq_of_lt hXlt, Nat.add_zero,
        Nat.mul_add_mod, Nat.mod_eq_of_lt hXlt,
        symmTable_cancel' L d g _ hL (Nat.mod_lt _ hn), Nat.div_add_mod]
    · intro j _
      have hXlt : symmTable L d g (j % L ^ d) < L ^ d :=
        symmTable_lt L d _ _ hL
      dsimp only
      rw [Nat.mul_add_div hn, Nat.div_eq_of_lt hXlt, Nat.add_zero,
        Nat.mul_add_mod, Nat.mod_eq_of_lt hXlt,
        symmTable_cancel L d g _ hL (Nat.mod_lt _ hn), Nat.div_add_mod]
    · intro j _
      exact congrArg lncosh
        (theta_translation L d alpha ua ub a0 b0 W0 g j v hL hg)
  show (∑ i in Finset.range (L ^ d), v (symmTable L d g i) * a0)
        + (∑ j in Finset.range (alpha * L ^ d),
            lncosh ((hypercubeRbm L d alpha ua ub a0 b0 W0).theta
              (fun i => v (symmTable L d g i)) j))
      = (∑ i in Finset.range (L ^ d), v i * a0)
        + (∑ j in Finset.range (alpha * L ^ d),
            lncosh ((hypercubeRbm L d alpha ua ub a0 b0 W0).theta v j))
  rw [hvis, hhid]

/-- Witness for claim C3: the periodic chain of length 2, one channel, all
reduced parameters 1, configuration `v i = i`, translation `g = 1`. -/
theorem logVal_translation_invariant_witness :
    0 < 2 ∧ 1 < 2 ^ 1
      ∧ (hypercubeRbm 2 1 1 true true 1 (fun _ => 1) (fun _ _ => 1)).logVal
          (fun i => (fun k : ℕ => (k : ℝ)) (symmTable 2 1 1 i))
        = (hypercubeRbm 2 1 1 true true 1 (fun _ => 1) (fun _ _ => 1)).logVal
            (fun k : ℕ => (k : ℝ)) :=
  ⟨by norm_num, by norm_num,
    logVal_translation_invariant 2 1 1 true true 1 (fun _ => 1) (fun _ _ => 1)
      1 (fun k : ℕ => (k : ℝ)) (by norm_num) (by norm_num)⟩

end Netket

end
